import Mathlib

/-!
# Verification of the `binstruct` binary serialization module

Shallow embedding of `src/server/binstruct.py` (Python 2): a self-describing
binary serialization format for dynamically typed values.

Conventions of the embedding:

* A byte string / stream is a `List Nat` (each element a byte value `< 256`;
  the functions are total on all of `Nat`).
* Python exceptions are modelled by `Except PyErr`.  A decoder takes the
  stream and returns the decoded value together with the unconsumed rest of
  the stream (`StringIO` read cursor made explicit).
* Python 2 `StringIO.read(n)` silently returns fewer than `n` bytes when the
  stream is short, and `ord("")` raises `TypeError`; both behaviours are
  reproduced faithfully.
* The recursive variant codec is embedded with an explicit recursion budget
  (`fuel`); exhausting it is modelled as `PyErr.recursionError`, matching the
  interpreter's stack limit.  All theorems quantify over sufficient fuel.
-/

/-- The exceptions the module can raise.  `formatError` is the module's own
`FormatError`; the others are Python built-in exception kinds. -/
inductive PyErr : Type where
  | formatError (msg : String)
  | typeError
  | attributeError
  | zeroDivisionError
  | recursionError
deriving DecidableEq

/-! ## Bit-level helpers (`bitsOf`, `bitListToInt`, `bitListToBin`) -/

/-- Fuel-driven computation of `n.bit_length()`; `bitsOfAux fuel n` is the
bit length of `n` whenever `n ≤ fuel`. -/
def bitsOfAux : Nat → Nat → Nat
  | _, 0 => 0
  | 0, _ + 1 => 0
  | fuel + 1, n + 1 => bitsOfAux fuel ((n + 1) / 2) + 1

/-- Python `n.bit_length()` for a nonnegative `n` (source: `bitsOf`). -/
def bitsOf (n : Nat) : Nat := bitsOfAux n n

/-- The loop of `bitListToInt`: state is `(i, bitM)`; for each bit (taken from
the reversed list) it does `i += bitM * int(bit); bitM <<= 1`. -/
def bitListToIntCore : List Bool → Nat × Nat → Nat × Nat
  | [], p => p
  | b :: bs, p => bitListToIntCore bs (p.1 + p.2 * (if b then 1 else 0), p.2 * 2)

/-- Source `bitListToInt`: most-significant-bit-first value of a bit list. -/
def bitListToInt (l : List Bool) : Nat :=
  (bitListToIntCore l.reverse (0, 1)).1

/-- Source `bitListToBin`: pack a bit list (whose length is a multiple of 8)
into bytes, 8 bits per byte, most significant bit first. -/
def bitListToBin (l : List Bool) : List Nat :=
  (List.range (l.length / 8)).map (fun i => bitListToInt ((l.drop (8 * i)).take 8))

/-- The bits of `n` produced by the loop `bit = 2**(k-1); while bit > 0: emit
bool(n & bit); bit >>= 1`: the low `k` bits of `n`, most significant first. -/
def msbBits (n : Nat) : Nat → List Bool
  | 0 => []
  | k + 1 => n.testBit k :: msbBits n k

/-- Source `eliasGammaEncode` (precondition in the source: `n > 0`):
`bitLen - 1` zero bits, the `bitLen` bits of `n`, zero-padded to a byte
boundary, packed into bytes. -/
def eliasGammaEncode (n : Nat) : List Nat :=
  let bitLen := bitsOf n
  let binData := List.replicate (bitLen - 1) false ++ msbBits n bitLen
  let padded := binData ++ List.replicate ((8 - binData.length % 8) % 8) false
  bitListToBin padded

/-- The 8 bits of a byte, most significant first (the `readBits` generator
yields `bool(byte & bitM)` for `bitM = 2^7 … 2^0`). -/
def byteToBits (b : Nat) : List Bool :=
  [b.testBit 7, b.testBit 6, b.testBit 5, b.testBit 4,
   b.testBit 3, b.testBit 2, b.testBit 1, b.testBit 0]

/-- All bits of the stream in generator order. -/
def streamBits (s : List Nat) : List Bool :=
  (s.map byteToBits).flatten

/-- The loop of `eliasGammaDecode` over the bit stream.  Arguments are the
remaining bits and the loop variables `state`, `num`, `bitM`; the result is
`(num, number of bits consumed)`.  Running out of bits is `ord("")`, a
`TypeError`. -/
def egLoop : List Bool → Nat → Nat → Nat → Except PyErr (Nat × Nat)
  | [], _, _, _ => .error .typeError
  | b :: bs, 0, num, bitM =>
    if b = false then
      match egLoop bs 0 num (bitM * 2) with
      | .ok p => .ok (p.1, p.2 + 1)
      | .error e => .error e
    else
      let num1 := num + bitM
      let bitM1 := bitM / 2
      if bitM1 = 0 then .ok (num1, 1)
      else
        match egLoop bs 1 num1 bitM1 with
        | .ok p => .ok (p.1, p.2 + 1)
        | .error e => .error e
  | b :: bs, _ + 1, num, bitM =>
    let num1 := num + (if b then bitM else 0)
    let bitM1 := bitM / 2
    if bitM1 = 0 then .ok (num1, 1)
    else
      match egLoop bs 1 num1 bitM1 with
      | .ok p => .ok (p.1, p.2 + 1)
      | .error e => .error e

/-- Source `eliasGammaDecode`: run the bit loop; the generator has drawn
`⌈consumed / 8⌉` bytes from the stream, the rest is untouched. -/
def eliasGammaDecode (stream : List Nat) : Except PyErr (Nat × List Nat) :=
  match egLoop (streamBits stream) 0 0 1 with
  | .ok p => .ok (p.1, stream.drop ((p.2 + 7) / 8))
  | .error e => .error e

/-! ## Signed integer codec (`intToBin`, `binToInt`, `intEncode`, `intDecode`) -/

/-- Source `intToBin`: minimal two's-complement big-endian bytes of `x` with
an always-present sign bit.  `bitLen` is `x.bit_length()` (via `(x+1)` for
negative `x`) plus one; a negative `x` is shifted by `256 ** byteLen`; byte
`j` is `(x >> ((byteLen-1-j)*8)) & 255`. -/
def intToBin (x : Int) : List Nat :=
  let bitLen := (if 0 ≤ x then bitsOf x.toNat else bitsOf (-(x + 1)).toNat) + 1
  let byteLen := (bitLen + 7) / 8
  let u := (if 0 ≤ x then x else x + (256 : Int) ^ byteLen).toNat
  (List.range byteLen).map (fun i => u / 2 ^ (8 * (byteLen - 1 - i)) % 256)

/-- Big-endian accumulation of the loop `n += bin[byteLen-i-1] << (i*8)`. -/
def binToIntNat (bin : List Nat) : Nat :=
  bin.foldl (fun acc b => acc * 256 + b) 0

/-- Source `binToInt`: big-endian unsigned value, then two's-complement sign
adjustment (`n -= 256 ** byteLen` when the top bit is set).  On the empty
string the Python comparison `0 >= 2 ** (-1)` is false, giving `0`; the `Nat`
threshold `2 ^ 0 = 1` reproduces that. -/
def binToInt (bin : List Nat) : Int :=
  let n := binToIntNat bin
  if 2 ^ (8 * bin.length - 1) ≤ n then (n : Int) - (256 : Int) ^ bin.length else n

/-- Source `intEncode`: gamma-coded byte count followed by the bytes. -/
def intEncode (x : Int) : List Nat :=
  eliasGammaEncode (intToBin x).length ++ intToBin x

/-- Source `intDecode`: gamma-decode the byte count, read that many bytes
(`StringIO.read` silently returns fewer when the stream is short). -/
def intDecode (stream : List Nat) : Except PyErr (Int × List Nat) :=
  match eliasGammaDecode stream with
  | .ok p => .ok (binToInt (p.2.take p.1), p.2.drop p.1)
  | .error e => .error e

/-! ## Float codec

A finite Python float is represented by its exact decomposition
`num / denom * 2 ^ e` as produced by `math.frexp` plus
`float.as_integer_ratio` (that decomposition is a canonical representative of
the IEEE double, so equality of triples is equality of doubles; the final
division in `floatDecode` is exact for every such triple).  `nan` and
`inf` are the special categories handled before the decomposition. -/

inductive Flt : Type where
  | nan
  | inf (pos : Bool)
  | finite (num denom e : Int)
deriving DecidableEq

/-- Source `floatEncode`.  NaN is `intEncode(0) * 3`.  For an infinity the
source calls `intEncode(math.copysign(1, x))`: `copysign` returns a *float*,
and `intToBin` then evaluates `(1.0).bit_length()`, which raises
`AttributeError` — so infinities cannot actually be encoded. -/
def floatEncode : Flt → Except PyErr (List Nat)
  | .nan => .ok (intEncode 0 ++ intEncode 0 ++ intEncode 0)
  | .inf _ => .error .attributeError
  | .finite num denom e => .ok (intEncode num ++ intEncode denom ++ intEncode e)

/-- Source `floatDecode`: read three integers and compute
`(float(num)/denom) * (2 ** e)`.  There is no guard for `denom == 0`, so the
documented NaN/±Inf sentinel encodings raise `ZeroDivisionError`. -/
def floatDecode (stream : List Nat) : Except PyErr (Flt × List Nat) :=
  match intDecode stream with
  | .error e => .error e
  | .ok (num, s1) =>
    match intDecode s1 with
    | .error e => .error e
    | .ok (denom, s2) =>
      match intDecode s2 with
      | .error e => .error e
      | .ok (e, s3) =>
        if denom = 0 then .error .zeroDivisionError
        else .ok (.finite num denom e, s3)

/-! ## Bool and string codecs -/

/-- Source `boolEncode`: one byte, `\x01` or `\x00`. -/
def boolEncode (b : Bool) : List Nat := if b then [1] else [0]

/-- Source `boolDecode`: `bool(ord(stream.read(1)))`.  On an exhausted stream
`read(1)` returns `""` and `ord("")` raises `TypeError`; otherwise any
nonzero byte is truthy. -/
def boolDecode (stream : List Nat) : Except PyErr (Bool × List Nat) :=
  match stream with
  | [] => .error .typeError
  | b :: rest => .ok (b != 0, rest)

/-- Source `strEncode` for a byte string: byte count, then the raw bytes. -/
def strEncode (s : List Nat) : List Nat :=
  intEncode (s.length : Int) ++ s

/-- Source `strDecode`: read the byte count, then that many raw bytes.
`StringIO.read` returns all remaining bytes for a negative count and
silently returns fewer bytes than requested on a short stream. -/
def strDecode (stream : List Nat) : Except PyErr (List Nat × List Nat) :=
  match intDecode stream with
  | .error e => .error e
  | .ok (strLen, rest) =>
    if strLen < 0 then .ok (rest, [])
    else .ok (rest.take strLen.toNat, rest.drop strLen.toNat)

example : intDecode (intEncode 0 ++ [7]) = .ok (0, [7]) := by rfl
example : intDecode (intEncode 1000 ++ [7]) = .ok (1000, [7]) := by rfl
example : intDecode (intEncode (-128) ++ []) = .ok (-128, []) := by rfl
example : intToBin (-128) = [128] := by rfl
example : intToBin 0 = [0] := by rfl
example : strDecode (strEncode [10, 200, 0] ++ [5]) = .ok ([10, 200, 0], [5]) := by rfl
example : floatDecode (intEncode 0 ++ intEncode 0 ++ intEncode 0) = .error .zeroDivisionError := by
  rfl

/-! ## The value data model and the variant codec -/

/-- The recursive sum type of representable values.  A Python `dict` is
embedded as its ordered list of key/value pairs (insertion order). -/
inductive Value : Type where
  | nil
  | bool (b : Bool)
  | int (i : Int)
  | float (f : Flt)
  | str (s : List Nat)
  | list (l : List Value)
  | dict (d : List (Value × Value))

/-- Source `prefixWithSize`: `intEncode(len(data)) + data`. -/
def prefixWithSize (data : List Nat) : List Nat :=
  intEncode (data.length : Int) ++ data

/-- Modelled from the spec: `listEncode` is an unimplemented stub (`pass`) in
the source; per the spec a list body is the int-encoded item count followed
by the variant envelope of each item in order.  This is the concatenation of
the envelopes, parameterized by the envelope encoder `enc`. -/
def encodeItems (enc : Value → Except PyErr (List Nat)) :
    List Value → Except PyErr (List Nat)
  | [] => .ok []
  | v :: vs =>
    match enc v with
    | .error e => .error e
    | .ok b =>
      match encodeItems enc vs with
      | .error e => .error e
      | .ok bs => .ok (b ++ bs)

/-- Modelled from the spec: `listEncode` stub; `intEncode(itemCount)` followed
by the envelopes of the items in caller-supplied order. -/
def listEncode (enc : Value → Except PyErr (List Nat)) (l : List Value) :
    Except PyErr (List Nat) :=
  match encodeItems enc l with
  | .error e => .error e
  | .ok bodies => .ok (intEncode (l.length : Int) ++ bodies)

/-- Modelled from the spec: `dictEncode` is an unimplemented stub (`pass`) in
the source; each pair contributes the envelope of the key then the envelope
of the value. -/
def encodePairs (enc : Value → Except PyErr (List Nat)) :
    List (Value × Value) → Except PyErr (List Nat)
  | [] => .ok []
  | p :: ps =>
    match enc p.1 with
    | .error e => .error e
    | .ok bk =>
      match enc p.2 with
      | .error e => .error e
      | .ok bv =>
        match encodePairs enc ps with
        | .error e => .error e
        | .ok bs => .ok (bk ++ bv ++ bs)

/-- Modelled from the spec: `dictEncode` stub; `intEncode(pairCount)` followed
by the key/value envelopes of each pair in caller-supplied order. -/
def dictEncode (enc : Value → Except PyErr (List Nat)) (d : List (Value × Value)) :
    Except PyErr (List Nat) :=
  match encodePairs enc d with
  | .error e => .error e
  | .ok bodies => .ok (intEncode (d.length : Int) ++ bodies)

/-- Modelled from the spec: `listDecode` stub; decode exactly `count`
consecutive envelopes with the envelope decoder `dec`. -/
def decodeItems (dec : List Nat → Except PyErr (Value × List Nat)) :
    Nat → List Nat → Except PyErr (List Value × List Nat)
  | 0, s => .ok ([], s)
  | k + 1, s =>
    match dec s with
    | .error e => .error e
    | .ok (v, s1) =>
      match decodeItems dec k s1 with
      | .error e => .error e
      | .ok (vs, s2) => .ok (v :: vs, s2)

/-- Modelled from the spec: `listDecode` stub; read the item count, then that
many envelopes, collected in stream order. -/
def listDecode (dec : List Nat → Except PyErr (Value × List Nat))
    (stream : List Nat) : Except PyErr (Value × List Nat) :=
  match intDecode stream with
  | .error e => .error e
  | .ok (count, s1) =>
    match decodeItems dec count.toNat s1 with
    | .error e => .error e
    | .ok (items, s2) => .ok (.list items, s2)

/-- Modelled from the spec: `dictDecode` stub; decode exactly `count`
key/value envelope pairs. -/
def decodePairs (dec : List Nat → Except PyErr (Value × List Nat)) :
    Nat → List Nat → Except PyErr (List (Value × Value) × List Nat)
  | 0, s => .ok ([], s)
  | k + 1, s =>
    match dec s with
    | .error e => .error e
    | .ok (vk, s1) =>
      match dec s1 with
      | .error e => .error e
      | .ok (vv, s2) =>
        match decodePairs dec k s2 with
        | .error e => .error e
        | .ok (ps, s3) => .ok ((vk, vv) :: ps, s3)

/-- Modelled from the spec: `dictDecode` stub; read the pair count, then that
many key/value envelope pairs, in stream order. -/
def dictDecode (dec : List Nat → Except PyErr (Value × List Nat))
    (stream : List Nat) : Except PyErr (Value × List Nat) :=
  match intDecode stream with
  | .error e => .error e
  | .ok (count, s1) =>
    match decodePairs dec count.toNat s1 with
    | .error e => .error e
    | .ok (pairs, s2) => .ok (.dict pairs, s2)

/-- One unfolding of `varEncode`, parameterized by the encoder used for the
recursive list/dict items.  Branches follow the source `isinstance` chain:

* `None` → `intEncode(0)`, no tag, no body;
* `bool` → the source computes `array("B", (3,)) + boolEncode(v)`, but
  Python 2 `array + str` raises `TypeError` (`boolEncode` returns a `str`),
  so booleans cannot actually be encoded;
* `int` → `prefixWithSize` of tag `4` and `intEncode(v)`;
* `float` → `prefixWithSize` of tag `5` and `floatEncode(v)`;
* `str` → `prefixWithSize` of tag `6` and `strEncode(v)`;
* `list`/`dict` → `intEncode(len(data) + 1)`, the tag byte, then the body. -/
def varEncodeStep (enc : Value → Except PyErr (List Nat)) :
    Value → Except PyErr (List Nat)
  | .nil => .ok (intEncode 0)
  | .bool _ => .error .typeError
  | .int i => .ok (prefixWithSize (4 :: intEncode i))
  | .float f =>
    match floatEncode f with
    | .error e => .error e
    | .ok body => .ok (prefixWithSize (5 :: body))
  | .str s => .ok (prefixWithSize (6 :: strEncode s))
  | .list l =>
    match listEncode enc l with
    | .error e => .error e
    | .ok data => .ok (intEncode ((data.length : Int) + 1) ++ 1 :: data)
  | .dict d =>
    match dictEncode enc d with
    | .error e => .error e
    | .ok data => .ok (intEncode ((data.length : Int) + 1) ++ 2 :: data)

/-- Source `varEncode` with an explicit recursion budget. -/
def varEncodeF : Nat → Value → Except PyErr (List Nat)
  | 0 => fun _ => .error .recursionError
  | fuel + 1 => varEncodeStep (fun v => varEncodeF fuel v)

/-- One unfolding of `varDecode`, parameterized by the decoder used for the
recursive list/dict items: read the size field with `intDecode`; negative is
`FormatError`, zero is `None`; otherwise read the tag byte (`TypeError` on an
exhausted stream) and dispatch; an unknown tag is `FormatError`. -/
def varDecodeStep (dec : List Nat → Except PyErr (Value × List Nat))
    (stream : List Nat) : Except PyErr (Value × List Nat) :=
  match intDecode stream with
  | .error e => .error e
  | .ok (varLen, s) =>
    if varLen < 0 then .error (.formatError "varLen < 0")
    else if varLen = 0 then .ok (.nil, s)
    else
      match s with
      | [] => .error .typeError
      | t :: s1 =>
        if t = 1 then listDecode dec s1
        else if t = 2 then dictDecode dec s1
        else if t = 3 then
          match boolDecode s1 with
          | .error e => .error e
          | .ok (b, s2) => .ok (.bool b, s2)
        else if t = 4 then
          match intDecode s1 with
          | .error e => .error e
          | .ok (i, s2) => .ok (.int i, s2)
        else if t = 5 then
          match floatDecode s1 with
          | .error e => .error e
          | .ok (f, s2) => .ok (.float f, s2)
        else if t = 6 then
          match strDecode s1 with
          | .error e => .error e
          | .ok (st, s2) => .ok (.str st, s2)
        else .error (.formatError ("type " ++ toString t ++ " unknown"))

/-- Source `varDecode` with an explicit recursion budget. -/
def varDecodeF : Nat → List Nat → Except PyErr (Value × List Nat)
  | 0 => fun _ => .error .recursionError
  | fuel + 1 => varDecodeStep (fun s => varDecodeF fuel s)

/-- The values the codec can actually round-trip as far as the *float* fields
are concerned: every float in the value is finite with a nonzero denominator
(as every `frexp`/`as_integer_ratio` decomposition is). -/
inductive Value.Wf : Value → Prop
  | nil : Value.Wf .nil
  | bool (b : Bool) : Value.Wf (.bool b)
  | int (i : Int) : Value.Wf (.int i)
  | float (num denom e : Int) : denom ≠ 0 → Value.Wf (.float (.finite num denom e))
  | str (s : List Nat) : Value.Wf (.str s)
  | list (l : List Value) : (∀ v ∈ l, Value.Wf v) → Value.Wf (.list l)
  | dict (d : List (Value × Value)) :
      (∀ p ∈ d, Value.Wf p.1) → (∀ p ∈ d, Value.Wf p.2) → Value.Wf (.dict d)

example : varEncodeF 1 (Value.bool true) = .error .typeError := by rfl
example : varEncodeF 1 (Value.float .nan) = .ok [128, 7, 5, 128, 0, 128, 0, 128, 0] := by rfl
example : varDecodeF 1 [128, 7, 5, 128, 0, 128, 0, 128, 0] = .error .zeroDivisionError := by rfl
example : varDecodeF 1 (varEncodeF 1 (Value.int 1000) |>.toOption.getD []) =
    .ok (Value.int 1000, []) := by rfl
example : varDecodeF 1 [128, 5, 6, 128, 10] = .ok (Value.str [], []) := by rfl
example : varDecodeF 1 (intEncode 2 ++ 7 :: [0]) = .error (.formatError "type 7 unknown") := by rfl

/-! ## Lemmas about `bitsOf` -/

theorem bitsOfAux_zero (f : Nat) : bitsOfAux f 0 = 0 := by
  cases f <;> rfl

theorem bitsOfAux_congr : ∀ n f₁ f₂, n ≤ f₁ → n ≤ f₂ → bitsOfAux f₁ n = bitsOfAux f₂ n := by
  intro n
  induction n using Nat.strong_induction_on with
  | _ n ih =>
    intro f₁ f₂ h₁ h₂
    match n, f₁, f₂ with
    | 0, f₁, f₂ => rw [bitsOfAux_zero, bitsOfAux_zero]
    | n + 1, f₁ + 1, f₂ + 1 =>
      show bitsOfAux f₁ ((n + 1) / 2) + 1 = bitsOfAux f₂ ((n + 1) / 2) + 1
      rw [ih ((n + 1) / 2) (by omega) f₁ f₂ (by omega) (by omega)]

theorem bitsOf_succ (n : Nat) : bitsOf (n + 1) = bitsOf ((n + 1) / 2) + 1 := by
  show bitsOfAux (n + 1) (n + 1) = bitsOfAux ((n + 1) / 2) ((n + 1) / 2) + 1
  show bitsOfAux n ((n + 1) / 2) + 1 = _
  rw [bitsOfAux_congr ((n + 1) / 2) n ((n + 1) / 2) (by omega) le_rfl]

theorem bitsOf_pos_rec (n : Nat) (h : 0 < n) : bitsOf n = bitsOf (n / 2) + 1 := by
  match n, h with
  | n + 1, _ => exact bitsOf_succ n

theorem lt_two_pow_bitsOf : ∀ n, n < 2 ^ bitsOf n := by
  intro n
  induction n using Nat.strong_induction_on with
  | _ n ih =>
    match n with
    | 0 => exact Nat.one_pos
    | n + 1 =>
      rw [bitsOf_succ, pow_succ]
      have := ih ((n + 1) / 2) (by omega)
      omega

theorem two_pow_bitsOf_le : ∀ n, 0 < n → 2 ^ (bitsOf n - 1) ≤ n := by
  intro n
  induction n using Nat.strong_induction_on with
  | _ n ih =>
    intro h
    match n, h with
    | 1, _ => decide
    | n + 2, _ =>
      rw [bitsOf_succ]
      have hd : 0 < (n + 2) / 2 := by omega
      have h1 := ih ((n + 2) / 2) (by omega) hd
      have h2 : 0 < bitsOf ((n + 2) / 2) := by
        rw [bitsOf_pos_rec _ hd]; omega
      have h3 : bitsOf ((n + 2) / 2) + 1 - 1 = (bitsOf ((n + 2) / 2) - 1) + 1 := by omega
      rw [h3, pow_succ]
      omega

theorem bitsOf_pos (n : Nat) (h : 0 < n) : 0 < bitsOf n := by
  rw [bitsOf_pos_rec n h]; omega

theorem testBit_bitsOf_pred (n : Nat) (h : 0 < n) : n.testBit (bitsOf n - 1) = true := by
  have h1 := two_pow_bitsOf_le n h
  have h2 := lt_two_pow_bitsOf n
  have h3 := bitsOf_pos n h
  rw [Nat.testBit_to_div_mod]
  have hp : 0 < 2 ^ (bitsOf n - 1) := Nat.pos_pow_of_pos _ (by norm_num)
  have hdiv : n / 2 ^ (bitsOf n - 1) = 1 := by
    have hlt : n < 2 ^ (bitsOf n - 1) * 2 := by
      have he : 2 ^ (bitsOf n - 1) * 2 = 2 ^ (bitsOf n - 1 + 1) := (pow_succ 2 _).symm
      rw [he]
      have he2 : bitsOf n - 1 + 1 = bitsOf n := by omega
      rw [he2]; exact h2
    have hlo := Nat.div_lt_of_lt_mul hlt
    have hhi : 1 ≤ n / 2 ^ (bitsOf n - 1) := (Nat.le_div_iff_mul_le hp).2 (by omega)
    omega
  rw [hdiv]
  decide

/-! ## Lemmas about bit lists -/

theorem bitListToIntCore_append (xs ys : List Bool) (p : Nat × Nat) :
    bitListToIntCore (xs ++ ys) p = bitListToIntCore ys (bitListToIntCore xs p) := by
  induction xs generalizing p with
  | nil => rfl
  | cons x xs ih => simp [bitListToIntCore, ih]

theorem bitListToIntCore_general (xs : List Bool) (i m : Nat) :
    bitListToIntCore xs (i, m) =
      (i + m * (bitListToIntCore xs (0, 1)).1, m * 2 ^ xs.length) := by
  induction xs generalizing i m with
  | nil => simp [bitListToIntCore]
  | cons x xs ih =>
    show bitListToIntCore xs (i + m * _, m * 2) = _
    rw [ih]
    have hx : (bitListToIntCore (x :: xs) (0, 1)).1 =
        (if x then 1 else 0) + 2 * (bitListToIntCore xs (0, 1)).1 := by
      show (bitListToIntCore xs (0 + 1 * _, 1 * 2)).1 = _
      rw [ih]
      ring_nf
    rw [hx, List.length_cons, pow_succ]
    simp only [Prod.mk.injEq]
    exact ⟨by ring, by ring⟩

theorem bitListToInt_cons (b : Bool) (bs : List Bool) :
    bitListToInt (b :: bs) = bitListToInt bs + 2 ^ bs.length * (if b then 1 else 0) := by
  unfold bitListToInt
  rw [List.reverse_cons, bitListToIntCore_append]
  have h1 : bitListToIntCore bs.reverse (0, 1) =
      (bitListToInt bs, 2 ^ bs.length) := by
    rw [bitListToIntCore_general]
    simp [bitListToInt]
  rw [h1]
  show (bitListToIntCore [] (_, _)).1 = _
  show bitListToInt bs + 2 ^ bs.length * (if b then 1 else 0) = _
  rfl

theorem msbBits_length (n : Nat) : ∀ k, (msbBits n k).length = k := by
  intro k
  induction k with
  | zero => rfl
  | succ k ih => simp [msbBits, ih]

theorem bitListToInt_msbBits (n : Nat) : ∀ k, bitListToInt (msbBits n k) = n % 2 ^ k := by
  intro k
  induction k with
  | zero => simp [msbBits, bitListToInt, bitListToIntCore, Nat.mod_one]
  | succ k ih =>
    rw [msbBits, bitListToInt_cons, ih, msbBits_length]
    have h1 : n % 2 ^ (k + 1) = n % 2 ^ k + 2 ^ k * (n / 2 ^ k % 2) := by
      rw [pow_succ]
      exact Nat.mod_mul
    rw [h1, Nat.testBit_to_div_mod]
    have h2 : n / 2 ^ k % 2 = 1 ∨ n / 2 ^ k % 2 = 0 := by omega
    rcases h2 with h2 | h2 <;> simp [h2]

/-! ## Packing bits into bytes and back -/

theorem bitListToBin_nil : bitListToBin [] = [] := rfl

theorem bitListToBin_chunk (c l : List Bool) (hc : c.length = 8) :
    bitListToBin (c ++ l) = bitListToInt c :: bitListToBin l := by
  unfold bitListToBin
  have hlen : (c ++ l).length / 8 = l.length / 8 + 1 := by
    rw [List.length_append, hc]; omega
  rw [hlen, List.range_succ_eq_map, List.map_cons, List.map_map]
  have h0 : ((c ++ l).drop (8 * 0)).take 8 = c := by
    simp only [Nat.mul_zero, List.drop_zero]
    rw [← hc, List.take_left]
  rw [h0]
  congr 1
  refine List.map_congr_left (fun i _ => ?_)
  show bitListToInt (((c ++ l).drop (8 * Nat.succ i)).take 8) =
    bitListToInt ((l.drop (8 * i)).take 8)
  have hd : (c ++ l).drop (8 * Nat.succ i) = l.drop (8 * i) := by
    have h8 : 8 * Nat.succ i = 8 + 8 * i := by omega
    rw [h8, ← List.drop_drop]
    congr 1
    rw [← hc, List.drop_left]
  rw [hd]

theorem byteToBits_bitListToInt (c : List Bool) (hc : c.length = 8) :
    byteToBits (bitListToInt c) = c := by
  match c, hc with
  | [b0, b1, b2, b3, b4, b5, b6, b7], _ =>
    revert b0 b1 b2 b3 b4 b5 b6 b7
    decide

theorem streamBits_append (a b : List Nat) :
    streamBits (a ++ b) = streamBits a ++ streamBits b := by
  unfold streamBits
  rw [List.map_append, List.flatten_append]

theorem streamBits_bitListToBin : ∀ k (l : List Bool), l.length = 8 * k →
    streamBits (bitListToBin l) = l := by
  intro k
  induction k with
  | zero =>
    intro l hl
    have : l = [] := List.length_eq_zero.1 (by omega)
    subst this
    rfl
  | succ k ih =>
    intro l hl
    have hsplit : l = l.take 8 ++ l.drop 8 := (List.take_append_drop 8 l).symm
    have htake : (l.take 8).length = 8 := by
      rw [List.length_take]; omega
    have hdrop : (l.drop 8).length = 8 * k := by
      rw [List.length_drop]; omega
    conv_lhs => rw [hsplit]
    rw [bitListToBin_chunk _ _ htake]
    show streamBits (bitListToInt (l.take 8) :: bitListToBin (l.drop 8)) = l
    have hcons : streamBits (bitListToInt (l.take 8) :: bitListToBin (l.drop 8)) =
        byteToBits (bitListToInt (l.take 8)) ++ streamBits (bitListToBin (l.drop 8)) := rfl
    rw [hcons, byteToBits_bitListToInt _ htake, ih _ hdrop]
    exact (List.take_append_drop 8 l)

/-! ## The Elias-gamma decode loop -/

theorem egLoop_state0_false (bs : List Bool) (num bitM : Nat) :
    egLoop (false :: bs) 0 num bitM =
      match egLoop bs 0 num (bitM * 2) with
      | .ok p => .ok (p.1, p.2 + 1)
      | .error e => .error e := rfl

theorem egLoop_state0_true (bs : List Bool) (num bitM : Nat) :
    egLoop (true :: bs) 0 num bitM =
      if bitM / 2 = 0 then .ok (num + bitM, 1)
      else
        match egLoop bs 1 (num + bitM) (bitM / 2) with
        | .ok p => .ok (p.1, p.2 + 1)
        | .error e => .error e := rfl

theorem egLoop_state1_cons (b : Bool) (bs : List Bool) (num bitM : Nat) :
    egLoop (b :: bs) 1 num bitM =
      if bitM / 2 = 0 then .ok (num + (if b then bitM else 0), 1)
      else
        match egLoop bs 1 (num + (if b then bitM else 0)) (bitM / 2) with
        | .ok p => .ok (p.1, p.2 + 1)
        | .error e => .error e := rfl

theorem egLoop_zeros (k : Nat) : ∀ (bs : List Bool) (num m : Nat),
    egLoop (List.replicate k false ++ bs) 0 num m =
      match egLoop bs 0 num (m * 2 ^ k) with
      | .ok p => .ok (p.1, p.2 + k)
      | .error e => .error e := by
  induction k with
  | zero =>
    intro bs num m
    simp only [List.replicate, List.nil_append, pow_zero, Nat.mul_one]
    cases egLoop bs 0 num m with
    | ok p => rfl
    | error e => rfl
  | succ k ih =>
    intro bs num m
    rw [List.replicate_succ, List.cons_append, egLoop_state0_false, ih bs num (m * 2)]
    have hm : m * 2 * 2 ^ k = m * 2 ^ (k + 1) := by rw [pow_succ]; ring
    rw [hm]
    cases egLoop bs 0 num (m * 2 ^ (k + 1)) with
    | ok p =>
      show Except.ok (p.1, p.2 + k + 1) = Except.ok (p.1, p.2 + (k + 1))
      rw [Nat.add_assoc]
    | error e => rfl

theorem egLoop_phase1 : ∀ (bits rest : List Bool) (num : Nat), 0 < bits.length →
    egLoop (bits ++ rest) 1 num (2 ^ (bits.length - 1)) =
      .ok (num + bitListToInt bits, bits.length) := by
  intro bits
  induction bits with
  | nil => intro rest num h; simp at h
  | cons b bs ih =>
    intro rest num _
    cases bs with
    | nil =>
      show egLoop (b :: rest) 1 num (2 ^ 0) = _
      cases b <;> rfl
    | cons b' bs' =>
      have hL : 0 < (b' :: bs').length := by simp
      have hlen : (b :: b' :: bs').length - 1 = (b' :: bs').length := by simp
      rw [hlen, List.cons_append, egLoop_state1_cons]
      have hpow : 2 ^ (b' :: bs').length / 2 = 2 ^ ((b' :: bs').length - 1) := by
        have h := Nat.pow_div (x := 2) hL (by norm_num)
        rwa [pow_one] at h
      have hne : 2 ^ ((b' :: bs').length - 1) ≠ 0 :=
        (Nat.pos_pow_of_pos _ (by norm_num)).ne'
      rw [hpow, if_neg hne, ih rest _ hL]
      show Except.ok
        (num + (if b then 2 ^ (b' :: bs').length else 0) + bitListToInt (b' :: bs'),
          (b' :: bs').length + 1) = _
      have hc : (b :: b' :: bs').length = (b' :: bs').length + 1 := rfl
      have hite : (if b then 2 ^ (b' :: bs').length else 0) =
          2 ^ (b' :: bs').length * (if b then 1 else 0) := by
        cases b <;> simp
      have harith : num + (if b then 2 ^ (b' :: bs').length else 0) +
          bitListToInt (b' :: bs') =
          num + (bitListToInt (b' :: bs') +
            2 ^ (b' :: bs').length * (if b then 1 else 0)) := by
        rw [hite]; ring
      rw [bitListToInt_cons b (b' :: bs'), harith]
      rfl

/-! ## Round-trip and byte length of the gamma codec -/

theorem bitListToBin_length (l : List Bool) : (bitListToBin l).length = l.length / 8 := by
  unfold bitListToBin
  rw [List.length_map, List.length_range]

theorem eliasGammaEncode_eq (n : Nat) :
    eliasGammaEncode n =
      bitListToBin ((List.replicate (bitsOf n - 1) false ++ msbBits n (bitsOf n)) ++
        List.replicate ((8 - (2 * bitsOf n - 1) % 8) % 8) false) := by
  have hbdlen : (List.replicate (bitsOf n - 1) false ++ msbBits n (bitsOf n)).length
      = 2 * bitsOf n - 1 := by
    rw [List.length_append, List.length_replicate, msbBits_length]
    have := bitsOf_pos n
    rcases Nat.eq_zero_or_pos (bitsOf n) with h0 | h0 <;> omega
  show bitListToBin ((List.replicate (bitsOf n - 1) false ++ msbBits n (bitsOf n)) ++
    List.replicate
      ((8 - (List.replicate (bitsOf n - 1) false ++ msbBits n (bitsOf n)).length % 8) % 8)
      false) = _
  rw [hbdlen]

theorem eliasGammaEncode_padded_length (n : Nat) :
    ((List.replicate (bitsOf n - 1) false ++ msbBits n (bitsOf n)) ++
      List.replicate ((8 - (2 * bitsOf n - 1) % 8) % 8) false).length =
    8 * ((2 * bitsOf n - 1 + 7) / 8) := by
  rw [List.length_append, List.length_append, List.length_replicate,
    List.length_replicate, msbBits_length]
  omega

theorem eliasGammaEncode_length (n : Nat) :
    (eliasGammaEncode n).length = (2 * bitsOf n - 1 + 7) / 8 := by
  rw [eliasGammaEncode_eq, bitListToBin_length, eliasGammaEncode_padded_length]
  omega

theorem eliasGammaDecode_encode (n : Nat) (h : 0 < n) (rest : List Nat) :
    eliasGammaDecode (eliasGammaEncode n ++ rest) = .ok (n, rest) := by
  by_cases hL1 : bitsOf n = 1
  · have hn1 : n = 1 := by
      have h1 := two_pow_bitsOf_le n h
      have h2 := lt_two_pow_bitsOf n
      rw [hL1] at h1 h2
      norm_num at h1 h2
      omega
    subst hn1
    rfl
  · have hL := bitsOf_pos n h
    have hL2 : 2 ≤ bitsOf n := by omega
    have hmsb : msbBits n (bitsOf n) = true :: msbBits n (bitsOf n - 1) := by
      conv_lhs => rw [show bitsOf n = (bitsOf n - 1) + 1 by omega]
      show n.testBit (bitsOf n - 1) :: msbBits n (bitsOf n - 1) = _
      rw [testBit_bitsOf_pred n h]
    have hstream : streamBits (eliasGammaEncode n ++ rest) =
        List.replicate (bitsOf n - 1) false ++ (msbBits n (bitsOf n) ++
          (List.replicate ((8 - (2 * bitsOf n - 1) % 8) % 8) false ++ streamBits rest)) := by
      rw [eliasGammaEncode_eq, streamBits_append,
        streamBits_bitListToBin ((2 * bitsOf n - 1 + 7) / 8) _
          (eliasGammaEncode_padded_length n),
        List.append_assoc, List.append_assoc]
    have hpow2 : 2 ^ (bitsOf n - 1) / 2 = 2 ^ (bitsOf n - 2) := by
      have hgn := Nat.pow_div (x := 2) (m := bitsOf n - 1) (n := 1) (by omega) (by norm_num)
      rw [pow_one] at hgn
      rw [hgn]
      congr 1
    have hne2 : 2 ^ (bitsOf n - 2) ≠ 0 := (Nat.pos_pow_of_pos _ (by norm_num)).ne'
    have hmsblen : 0 < (msbBits n (bitsOf n - 1)).length := by
      rw [msbBits_length]; omega
    have hph := egLoop_phase1 (msbBits n (bitsOf n - 1))
      (List.replicate ((8 - (2 * bitsOf n - 1) % 8) % 8) false ++ streamBits rest)
      (0 + 2 ^ (bitsOf n - 1)) hmsblen
    rw [msbBits_length, bitListToInt_msbBits,
      show bitsOf n - 1 - 1 = bitsOf n - 2 by omega] at hph
    have hple : 2 ^ (bitsOf n - 1) ≤ n := two_pow_bitsOf_le n h
    have hplt : n < 2 ^ bitsOf n := lt_two_pow_bitsOf n
    have h2L : 2 ^ bitsOf n = 2 * 2 ^ (bitsOf n - 1) := by
      conv_lhs => rw [show bitsOf n = (bitsOf n - 1) + 1 by omega]
      rw [pow_succ]; ring
    have hmod : n % 2 ^ (bitsOf n - 1) = n - 2 ^ (bitsOf n - 1) := by
      rw [Nat.mod_eq_sub_mod hple, Nat.mod_eq_of_lt (by omega)]
    have hloop : egLoop (streamBits (eliasGammaEncode n ++ rest)) 0 0 1 =
        .ok (n, 2 * bitsOf n - 1) := by
      rw [hstream, hmsb, List.cons_append, egLoop_zeros, one_mul, egLoop_state0_true,
        hpow2, if_neg hne2, hph]
      show Except.ok (0 + 2 ^ (bitsOf n - 1) + n % 2 ^ (bitsOf n - 1),
        bitsOf n - 1 + 1 + (bitsOf n - 1)) = _
      have hfst : 0 + 2 ^ (bitsOf n - 1) + n % 2 ^ (bitsOf n - 1) = n := by
        rw [hmod]; omega
      have hsnd : bitsOf n - 1 + 1 + (bitsOf n - 1) = 2 * bitsOf n - 1 := by omega
      rw [hfst, hsnd]
    show (match egLoop (streamBits (eliasGammaEncode n ++ rest)) 0 0 1 with
      | .ok p => Except.ok (p.1, (eliasGammaEncode n ++ rest).drop ((p.2 + 7) / 8))
      | .error e => Except.error e) = Except.ok (n, rest)
    rw [hloop]
    show Except.ok (n, (eliasGammaEncode n ++ rest).drop ((2 * bitsOf n - 1 + 7) / 8)) = _
    rw [← eliasGammaEncode_length, List.drop_left]

/-! ## Round-trip of the integer codec -/

theorem binToIntNat_foldl (l : List Nat) : ∀ a : Nat,
    l.foldl (fun acc b => acc * 256 + b) a = a * 256 ^ l.length + binToIntNat l := by
  induction l with
  | nil => intro a; simp [binToIntNat]
  | cons x l ih =>
    intro a
    show l.foldl _ (a * 256 + x) = _
    rw [ih (a * 256 + x)]
    have hx : binToIntNat (x :: l) = x * 256 ^ l.length + binToIntNat l := by
      show l.foldl _ (0 * 256 + x) = _
      rw [ih (0 * 256 + x)]
      ring
    rw [hx, List.length_cons, pow_succ]
    ring

theorem binToIntNat_cons (b : Nat) (l : List Nat) :
    binToIntNat (b :: l) = b * 256 ^ l.length + binToIntNat l := by
  show l.foldl _ (0 * 256 + b) = _
  rw [binToIntNat_foldl]
  ring

theorem binToIntNat_range (L : Nat) : ∀ u : Nat,
    binToIntNat ((List.range L).map (fun i => u / 2 ^ (8 * (L - 1 - i)) % 256)) =
      u % 2 ^ (8 * L) := by
  induction L with
  | zero => intro u; simp [binToIntNat, Nat.mod_one]
  | succ L ih =>
    intro u
    rw [List.range_succ_eq_map, List.map_cons, List.map_map]
    have htail : List.map ((fun i => u / 2 ^ (8 * (L + 1 - 1 - i)) % 256) ∘ Nat.succ)
        (List.range L) =
        List.map (fun i => u / 2 ^ (8 * (L - 1 - i)) % 256) (List.range L) :=
      List.map_congr_left (fun i _ => by
        show u / 2 ^ (8 * (L + 1 - 1 - (i + 1))) % 256 = u / 2 ^ (8 * (L - 1 - i)) % 256
        have h8 : L + 1 - 1 - (i + 1) = L - 1 - i := by omega
        rw [h8])
    rw [htail, binToIntNat_cons, List.length_map, List.length_range, ih u]
    have hBA : (256 : Nat) ^ L = 2 ^ (8 * L) := by
      rw [pow_mul]; norm_num
    have hmm : u % 2 ^ (8 * (L + 1)) =
        u % 2 ^ (8 * L) + 2 ^ (8 * L) * (u / 2 ^ (8 * L) % 256) := by
      have h1 : (2 : Nat) ^ (8 * (L + 1)) = 2 ^ (8 * L) * 256 := by
        rw [show 8 * (L + 1) = 8 * L + 8 by ring, pow_add]
        norm_num
      rw [h1, Nat.mod_mul]
    have hhead : L + 1 - 1 - 0 = L := by omega
    rw [hhead, hBA, hmm]
    ring

theorem intToBin_nonneg (x : Int) (hx : 0 ≤ x) :
    intToBin x =
      (List.range ((bitsOf x.toNat + 1 + 7) / 8)).map
        (fun i => x.toNat / 2 ^ (8 * ((bitsOf x.toNat + 1 + 7) / 8 - 1 - i)) % 256) := by
  unfold intToBin
  simp only [if_pos hx]

theorem intToBin_neg (x : Int) (hx : x < 0) :
    intToBin x =
      (List.range ((bitsOf (-(x + 1)).toNat + 1 + 7) / 8)).map
        (fun i => (x + (256 : Int) ^ ((bitsOf (-(x + 1)).toNat + 1 + 7) / 8)).toNat /
          2 ^ (8 * ((bitsOf (-(x + 1)).toNat + 1 + 7) / 8 - 1 - i)) % 256) := by
  unfold intToBin
  simp only [if_neg (not_le.2 hx)]

theorem binToInt_intToBin (x : Int) : binToInt (intToBin x) = x := by
  rcases le_or_lt 0 x with hx | hx
  · have hform := intToBin_nonneg x hx
    set B := (bitsOf x.toNat + 1 + 7) / 8 with hB
    have hlen : (intToBin x).length = B := by
      rw [hform, List.length_map, List.length_range]
    have hbl : bitsOf x.toNat + 1 ≤ 8 * B := by omega
    have h1 := lt_two_pow_bitsOf x.toNat
    have h2 : (2 : Nat) ^ bitsOf x.toNat ≤ 2 ^ (8 * B - 1) :=
      Nat.pow_le_pow_right (by norm_num) (by omega)
    have h3 : (2 : Nat) ^ (8 * B - 1) ≤ 2 ^ (8 * B) :=
      Nat.pow_le_pow_right (by norm_num) (by omega)
    have hval : binToIntNat (intToBin x) = x.toNat := by
      rw [hform, binToIntNat_range, Nat.mod_eq_of_lt (by omega)]
    show (if 2 ^ (8 * (intToBin x).length - 1) ≤ binToIntNat (intToBin x) then
        (binToIntNat (intToBin x) : Int) - (256 : Int) ^ (intToBin x).length
      else (binToIntNat (intToBin x) : Int)) = x
    rw [hval, hlen, if_neg (by omega)]
    exact Int.toNat_of_nonneg hx
  · have hx1 : (0 : Int) ≤ -(x + 1) := by omega
    have hform := intToBin_neg x hx
    have hmx : ((-(x + 1)).toNat : Int) = -(x + 1) := Int.toNat_of_nonneg hx1
    set m := (-(x + 1)).toNat with hm
    set B := (bitsOf m + 1 + 7) / 8 with hB
    have hB1 : 1 ≤ B := by omega
    have hbl : bitsOf m + 1 ≤ 8 * B := by omega
    have hmlt : m < 2 ^ bitsOf m := lt_two_pow_bitsOf m
    have hpow_le : (2 : Nat) ^ bitsOf m ≤ 2 ^ (8 * B - 1) :=
      Nat.pow_le_pow_right (by norm_num) (by omega)
    have hA2 : (2 : Nat) ^ (8 * B) = 2 * 2 ^ (8 * B - 1) := by
      conv_lhs => rw [show 8 * B = (8 * B - 1) + 1 by omega]
      rw [pow_succ]
      ring
    have h256 : ((256 : Int) ^ B) = (((2 : Nat) ^ (8 * B) : Nat) : Int) := by
      push_cast
      rw [show ((256 : Int)) = 2 ^ 8 by norm_num, ← pow_mul]
    have hu_nonneg : (0 : Int) ≤ x + 256 ^ B := by
      rw [h256]; omega
    have hucast : (((x + (256 : Int) ^ B).toNat : Nat) : Int) = x + 256 ^ B :=
      Int.toNat_of_nonneg hu_nonneg
    set u := (x + (256 : Int) ^ B).toNat with hu
    have huge : 2 ^ (8 * B - 1) ≤ u ∧ u < 2 ^ (8 * B) := by
      rw [h256] at hucast
      constructor <;> omega
    have hval : binToIntNat (intToBin x) = u := by
      rw [hform, binToIntNat_range, Nat.mod_eq_of_lt huge.2]
    have hlen : (intToBin x).length = B := by
      rw [hform, List.length_map, List.length_range]
    show (if 2 ^ (8 * (intToBin x).length - 1) ≤ binToIntNat (intToBin x) then
        (binToIntNat (intToBin x) : Int) - (256 : Int) ^ (intToBin x).length
      else (binToIntNat (intToBin x) : Int)) = x
    rw [hval, hlen, if_pos huge.1, hucast]
    ring

theorem intToBin_length_pos (x : Int) : 0 < (intToBin x).length := by
  rcases le_or_lt 0 x with hx | hx
  · rw [intToBin_nonneg x hx, List.length_map, List.length_range]; omega
  · rw [intToBin_neg x hx, List.length_map, List.length_range]; omega

theorem intDecode_intEncode (x : Int) (rest : List Nat) :
    intDecode (intEncode x ++ rest) = .ok (x, rest) := by
  unfold intDecode intEncode
  rw [List.append_assoc, eliasGammaDecode_encode _ (intToBin_length_pos x)]
  show Except.ok (binToInt ((intToBin x ++ rest).take (intToBin x).length),
    (intToBin x ++ rest).drop (intToBin x).length) = _
  rw [List.take_left, List.drop_left, binToInt_intToBin]

/-! ## Round-trips of the string and float codecs -/

theorem strDecode_strEncode (s rest : List Nat) :
    strDecode (strEncode s ++ rest) = .ok (s, rest) := by
  unfold strDecode strEncode
  rw [List.append_assoc, intDecode_intEncode]
  show (if ((s.length : Nat) : Int) < 0 then Except.ok (s ++ rest, [])
    else Except.ok ((s ++ rest).take ((s.length : Nat) : Int).toNat,
      (s ++ rest).drop ((s.length : Nat) : Int).toNat)) = _
  rw [if_neg (by omega), Int.toNat_natCast, List.take_left, List.drop_left]

theorem floatDecode_finite (num denom e : Int) (hd : denom ≠ 0) (rest : List Nat) :
    floatDecode ((intEncode num ++ intEncode denom ++ intEncode e) ++ rest) =
      .ok (.finite num denom e, rest) := by
  unfold floatDecode
  simp only [List.append_assoc, intDecode_intEncode]
  rw [if_neg hd]

/-! ## Round-trip of the list/dict item sequences -/

theorem decodeItems_encodeItems
    (enc : Value → Except PyErr (List Nat)) (dec : List Nat → Except PyErr (Value × List Nat))
    (H : ∀ v b r, Value.Wf v → enc v = .ok b → dec (b ++ r) = .ok (v, r)) :
    ∀ (l : List Value) (bodies rest : List Nat),
      (∀ v ∈ l, Value.Wf v) → encodeItems enc l = .ok bodies →
      decodeItems dec l.length (bodies ++ rest) = .ok (l, rest) := by
  intro l
  induction l with
  | nil =>
    intro bodies rest _ henc
    simp only [encodeItems] at henc
    injection henc with h
    subst h
    rfl
  | cons v vs ih =>
    intro bodies rest hwf henc
    simp only [encodeItems] at henc
    cases hev : enc v with
    | error e => rw [hev] at henc; exact absurd henc (by simp)
    | ok b =>
      cases hevs : encodeItems enc vs with
      | error e => rw [hev, hevs] at henc; exact absurd henc (by simp)
      | ok bs =>
        rw [hev, hevs] at henc
        injection henc with h
        subst h
        show decodeItems dec (vs.length + 1) ((b ++ bs) ++ rest) = _
        rw [List.append_assoc]
        simp only [decodeItems,
          H v b (bs ++ rest) (hwf v (List.mem_cons_self v vs)) hev,
          ih bs rest (fun w hw => hwf w (List.mem_cons_of_mem v hw)) hevs]

theorem decodePairs_encodePairs
    (enc : Value → Except PyErr (List Nat)) (dec : List Nat → Except PyErr (Value × List Nat))
    (H : ∀ v b r, Value.Wf v → enc v = .ok b → dec (b ++ r) = .ok (v, r)) :
    ∀ (d : List (Value × Value)) (bodies rest : List Nat),
      (∀ p ∈ d, Value.Wf p.1) → (∀ p ∈ d, Value.Wf p.2) → encodePairs enc d = .ok bodies →
      decodePairs dec d.length (bodies ++ rest) = .ok (d, rest) := by
  intro d
  induction d with
  | nil =>
    intro bodies rest _ _ henc
    simp only [encodePairs] at henc
    injection henc with h
    subst h
    rfl
  | cons p ps ih =>
    intro bodies rest hwfk hwfv henc
    simp only [encodePairs] at henc
    cases hek : enc p.1 with
    | error e => rw [hek] at henc; exact absurd henc (by simp)
    | ok bk =>
      cases hev : enc p.2 with
      | error e => rw [hek, hev] at henc; exact absurd henc (by simp)
      | ok bv =>
        cases heps : encodePairs enc ps with
        | error e => rw [hek, hev, heps] at henc; exact absurd henc (by simp)
        | ok bs =>
          rw [hek, hev, heps] at henc
          injection henc with h
          subst h
          show decodePairs dec (ps.length + 1) ((bk ++ bv ++ bs) ++ rest) = _
          rw [List.append_assoc, List.append_assoc]
          simp only [decodePairs,
            H p.1 bk (bv ++ (bs ++ rest)) (hwfk p (List.mem_cons_self p ps)) hek,
            H p.2 bv (bs ++ rest) (hwfv p (List.mem_cons_self p ps)) hev,
            ih bs rest (fun w hw => hwfk w (List.mem_cons_of_mem p hw))
              (fun w hw => hwfv w (List.mem_cons_of_mem p hw)) heps]

/-! ## Shapes of the encoded item sequences -/

theorem encodeItems_shape (enc : Value → Except PyErr (List Nat)) :
    ∀ (l : List Value) (bodies : List Nat), encodeItems enc l = .ok bodies →
      ∃ envs : List (List Nat),
        List.Forall₂ (fun v e => enc v = .ok e) l envs ∧ bodies = envs.flatten := by
  intro l
  induction l with
  | nil =>
    intro bodies h
    simp only [encodeItems] at h
    injection h with h
    exact ⟨[], .nil, h.symm⟩
  | cons v vs ih =>
    intro bodies h
    simp only [encodeItems] at h
    cases hev : enc v with
    | error e => rw [hev] at h; exact absurd h (by simp)
    | ok b =>
      cases hevs : encodeItems enc vs with
      | error e => rw [hev, hevs] at h; exact absurd h (by simp)
      | ok bs =>
        rw [hev, hevs] at h
        injection h with h
        obtain ⟨envs, hf, hbs⟩ := ih bs hevs
        exact ⟨b :: envs, .cons hev hf, by rw [← h, List.flatten_cons, hbs]⟩

theorem encodePairs_shape (enc : Value → Except PyErr (List Nat)) :
    ∀ (d : List (Value × Value)) (bodies : List Nat), encodePairs enc d = .ok bodies →
      ∃ envs : List (List Nat × List Nat),
        List.Forall₂ (fun p e => enc p.1 = .ok e.1 ∧ enc p.2 = .ok e.2) d envs ∧
        bodies = (envs.map (fun e => e.1 ++ e.2)).flatten := by
  intro d
  induction d with
  | nil =>
    intro bodies h
    simp only [encodePairs] at h
    injection h with h
    exact ⟨[], .nil, h.symm⟩
  | cons p ps ih =>
    intro bodies h
    simp only [encodePairs] at h
    cases hek : enc p.1 with
    | error e => rw [hek] at h; exact absurd h (by simp)
    | ok bk =>
      cases hev : enc p.2 with
      | error e => rw [hek, hev] at h; exact absurd h (by simp)
      | ok bv =>
        cases heps : encodePairs enc ps with
        | error e => rw [hek, hev, heps] at h; exact absurd h (by simp)
        | ok bs =>
          rw [hek, hev, heps] at h
          injection h with h
          obtain ⟨envs, hf, hbs⟩ := ih bs heps
          refine ⟨(bk, bv) :: envs, .cons ⟨hek, hev⟩ hf, ?_⟩
          rw [← h, List.map_cons, List.flatten_cons, hbs]

/-! ## Round-trip of the variant codec -/

theorem varDecodeF_varEncodeF : ∀ (fuel : Nat) (v : Value) (bytes rest : List Nat),
    Value.Wf v → varEncodeF fuel v = .ok bytes →
    varDecodeF fuel (bytes ++ rest) = .ok (v, rest) := by
  intro fuel
  induction fuel with
  | zero =>
    intro v bytes rest _ henc
    exact absurd henc (by simp [varEncodeF])
  | succ fuel ih =>
    intro v bytes rest hwf henc
    cases v with
    | nil =>
      have h0 : varEncodeF (fuel + 1) Value.nil = .ok (intEncode 0) := rfl
      rw [h0] at henc
      injection henc with hb
      subst hb
      show varDecodeStep (fun s => varDecodeF fuel s) (intEncode 0 ++ rest) = _
      unfold varDecodeStep
      rw [intDecode_intEncode]
      simp
    | bool b =>
      have h0 : varEncodeF (fuel + 1) (Value.bool b) = .error .typeError := rfl
      rw [h0] at henc
      exact absurd henc (by simp)
    | int i =>
      have h0 : varEncodeF (fuel + 1) (Value.int i) =
          .ok (prefixWithSize (4 :: intEncode i)) := rfl
      rw [h0] at henc
      injection henc with hb
      subst hb
      have hneg : ¬ ((((4 :: intEncode i).length : Nat) : Int) < 0) := by omega
      have hzero : ¬ ((((4 :: intEncode i).length : Nat) : Int) = 0) := by
        rw [List.length_cons]; omega
      show varDecodeStep (fun s => varDecodeF fuel s)
        ((intEncode (((4 :: intEncode i).length : Nat) : Int) ++ (4 :: intEncode i)) ++ rest) = _
      unfold varDecodeStep
      rw [List.append_assoc, intDecode_intEncode]
      simp only [if_neg hneg, if_neg hzero, List.cons_append, intDecode_intEncode]
      norm_num
    | float f =>
      cases hwf with
      | float num denom e hd =>
        have h0 : varEncodeF (fuel + 1) (Value.float (.finite num denom e)) =
            .ok (prefixWithSize
              (5 :: (intEncode num ++ intEncode denom ++ intEncode e))) := rfl
        rw [h0] at henc
        injection henc with hb
        subst hb
        have hneg : ¬ ((((5 :: (intEncode num ++ intEncode denom ++ intEncode e)).length :
            Nat) : Int) < 0) := by omega
        have hzero : ¬ ((((5 :: (intEncode num ++ intEncode denom ++ intEncode e)).length :
            Nat) : Int) = 0) := by
          rw [List.length_cons]; omega
        show varDecodeStep (fun s => varDecodeF fuel s)
          ((intEncode (((5 :: (intEncode num ++ intEncode denom ++ intEncode e)).length :
              Nat) : Int) ++
            (5 :: (intEncode num ++ intEncode denom ++ intEncode e))) ++ rest) = _
        unfold varDecodeStep
        rw [List.append_assoc, intDecode_intEncode]
        simp only [if_neg hneg, if_neg hzero, List.cons_append,
          floatDecode_finite num denom e hd rest]
        norm_num
    | str s =>
      have h0 : varEncodeF (fuel + 1) (Value.str s) =
          .ok (prefixWithSize (6 :: strEncode s)) := rfl
      rw [h0] at henc
      injection henc with hb
      subst hb
      have hneg : ¬ ((((6 :: strEncode s).length : Nat) : Int) < 0) := by omega
      have hzero : ¬ ((((6 :: strEncode s).length : Nat) : Int) = 0) := by
        rw [List.length_cons]; omega
      show varDecodeStep (fun s1 => varDecodeF fuel s1)
        ((intEncode (((6 :: strEncode s).length : Nat) : Int) ++ (6 :: strEncode s)) ++ rest) = _
      unfold varDecodeStep
      rw [List.append_assoc, intDecode_intEncode]
      simp only [if_neg hneg, if_neg hzero, List.cons_append, strDecode_strEncode]
      norm_num
    | list l =>
      have hl : ∀ w ∈ l, Value.Wf w := by
        cases hwf with
        | list _ h => exact h
      have h0 : varEncodeF (fuel + 1) (Value.list l) =
          (match listEncode (fun w => varEncodeF fuel w) l with
           | .error e => .error e
           | .ok data => .ok (intEncode ((data.length : Int) + 1) ++ 1 :: data)) := rfl
      rw [h0] at henc
      cases hle : listEncode (fun w => varEncodeF fuel w) l with
      | error e => rw [hle] at henc; exact absurd henc (by simp)
      | ok data =>
        rw [hle] at henc
        injection henc with hb
        subst hb
        simp only [listEncode] at hle
        cases hei : encodeItems (fun w => varEncodeF fuel w) l with
        | error e => rw [hei] at hle; exact absurd hle (by simp)
        | ok bodies =>
          rw [hei] at hle
          injection hle with h2
          subst h2
          have hneg : ¬ ((((intEncode ((l.length : Nat) : Int) ++ bodies).length : Nat) : Int)
              + 1 < 0) := by omega
          have hzero : ¬ ((((intEncode ((l.length : Nat) : Int) ++ bodies).length : Nat) : Int)
              + 1 = 0) := by omega
          show varDecodeStep (fun s => varDecodeF fuel s)
            ((intEncode ((((intEncode ((l.length : Nat) : Int) ++ bodies).length : Nat) : Int)
                + 1) ++
              1 :: (intEncode ((l.length : Nat) : Int) ++ bodies)) ++ rest) = _
          unfold varDecodeStep
          rw [List.append_assoc, intDecode_intEncode]
          simp only [if_neg hneg, if_neg hzero, List.cons_append]
          unfold listDecode
          rw [List.append_assoc, intDecode_intEncode]
          simp only [Int.toNat_natCast,
            decodeItems_encodeItems (fun w => varEncodeF fuel w) (fun s => varDecodeF fuel s)
              (fun w b r hw he => ih w b r hw he) l bodies rest hl hei]
          norm_num
    | dict d =>
      have hkv : (∀ p ∈ d, Value.Wf p.1) ∧ (∀ p ∈ d, Value.Wf p.2) := by
        cases hwf with
        | dict _ hk hv => exact ⟨hk, hv⟩
      have h0 : varEncodeF (fuel + 1) (Value.dict d) =
          (match dictEncode (fun w => varEncodeF fuel w) d with
           | .error e => .error e
           | .ok data => .ok (intEncode ((data.length : Int) + 1) ++ 2 :: data)) := rfl
      rw [h0] at henc
      cases hle : dictEncode (fun w => varEncodeF fuel w) d with
      | error e => rw [hle] at henc; exact absurd henc (by simp)
      | ok data =>
        rw [hle] at henc
        injection henc with hb
        subst hb
        simp only [dictEncode] at hle
        cases hei : encodePairs (fun w => varEncodeF fuel w) d with
        | error e => rw [hei] at hle; exact absurd hle (by simp)
        | ok bodies =>
          rw [hei] at hle
          injection hle with h2
          subst h2
          have hneg : ¬ ((((intEncode ((d.length : Nat) : Int) ++ bodies).length : Nat) : Int)
              + 1 < 0) := by omega
          have hzero : ¬ ((((intEncode ((d.length : Nat) : Int) ++ bodies).length : Nat) : Int)
              + 1 = 0) := by omega
          show varDecodeStep (fun s => varDecodeF fuel s)
            ((intEncode ((((intEncode ((d.length : Nat) : Int) ++ bodies).length : Nat) : Int)
                + 1) ++
              2 :: (intEncode ((d.length : Nat) : Int) ++ bodies)) ++ rest) = _
          unfold varDecodeStep
          rw [List.append_assoc, intDecode_intEncode]
          simp only [if_neg hneg, if_neg hzero, List.cons_append]
          unfold dictDecode
          rw [List.append_assoc, intDecode_intEncode]
          simp only [Int.toNat_natCast,
            decodePairs_encodePairs (fun w => varEncodeF fuel w) (fun s => varDecodeF fuel s)
              (fun w b r hw he => ih w b r hw he) d bodies rest hkv.1 hkv.2 hei]
          norm_num


/-! ## Round-trip of the list and dict bodies -/

theorem listDecode_listEncode (fuel : Nat) (l : List Value) (bytes rest : List Nat)
    (hwf : ∀ v ∈ l, Value.Wf v)
    (henc : listEncode (fun v => varEncodeF fuel v) l = .ok bytes) :
    listDecode (fun s => varDecodeF fuel s) (bytes ++ rest) = .ok (.list l, rest) := by
  simp only [listEncode] at henc
  cases hei : encodeItems (fun v => varEncodeF fuel v) l with
  | error e => rw [hei] at henc; exact absurd henc (by simp)
  | ok bodies =>
    rw [hei] at henc
    injection henc with h
    subst h
    unfold listDecode
    rw [List.append_assoc, intDecode_intEncode]
    simp only [Int.toNat_natCast,
      decodeItems_encodeItems (fun v => varEncodeF fuel v) (fun s => varDecodeF fuel s)
        (fun w b r hw he => varDecodeF_varEncodeF fuel w b r hw he) l bodies rest hwf hei]

theorem dictDecode_dictEncode (fuel : Nat) (d : List (Value × Value)) (bytes rest : List Nat)
    (hwfk : ∀ p ∈ d, Value.Wf p.1) (hwfv : ∀ p ∈ d, Value.Wf p.2)
    (henc : dictEncode (fun v => varEncodeF fuel v) d = .ok bytes) :
    dictDecode (fun s => varDecodeF fuel s) (bytes ++ rest) = .ok (.dict d, rest) := by
  simp only [dictEncode] at henc
  cases hei : encodePairs (fun v => varEncodeF fuel v) d with
  | error e => rw [hei] at henc; exact absurd henc (by simp)
  | ok bodies =>
    rw [hei] at henc
    injection henc with h
    subst h
    unfold dictDecode
    rw [List.append_assoc, intDecode_intEncode]
    simp only [Int.toNat_natCast,
      decodePairs_encodePairs (fun v => varEncodeF fuel v) (fun s => varDecodeF fuel s)
        (fun w b r hw he => varDecodeF_varEncodeF fuel w b r hw he) d bodies rest hwfk hwfv hei]

/-! ## The shape of every successful non-Nil envelope -/

theorem varEncode_shape (fuel : Nat) (v : Value) (bytes : List Nat)
    (hv : v ≠ .nil) (henc : varEncodeF fuel v = .ok bytes) :
    ∃ tag body, bytes = intEncode ((1 + body.length : Nat) : Int) ++ tag :: body ∧
      1 ≤ tag ∧ tag ≤ 6 := by
  match fuel with
  | 0 => exact absurd henc (by simp [varEncodeF])
  | fuel + 1 =>
    cases v with
    | nil => exact absurd rfl hv
    | bool b =>
      have h0 : varEncodeF (fuel + 1) (Value.bool b) = .error .typeError := rfl
      rw [h0] at henc
      exact absurd henc (by simp)
    | int i =>
      have h0 : varEncodeF (fuel + 1) (Value.int i) =
          .ok (prefixWithSize (4 :: intEncode i)) := rfl
      rw [h0] at henc
      injection henc with hb
      refine ⟨4, intEncode i, ?_, by norm_num, by norm_num⟩
      rw [← hb]
      show intEncode (((4 :: intEncode i).length : Nat) : Int) ++ 4 :: intEncode i = _
      rw [List.length_cons, Nat.add_comm]
    | float f =>
      cases f with
      | nan =>
        have h0 : varEncodeF (fuel + 1) (Value.float .nan) =
            .ok (prefixWithSize
              (5 :: (intEncode 0 ++ intEncode 0 ++ intEncode 0))) := rfl
        rw [h0] at henc
        injection henc with hb
        refine ⟨5, intEncode 0 ++ intEncode 0 ++ intEncode 0, ?_, by norm_num, by norm_num⟩
        rw [← hb]
        show intEncode (((5 :: (intEncode 0 ++ intEncode 0 ++ intEncode 0)).length : Nat) :
          Int) ++ 5 :: (intEncode 0 ++ intEncode 0 ++ intEncode 0) = _
        rw [List.length_cons, Nat.add_comm]
      | inf pos =>
        have h0 : varEncodeF (fuel + 1) (Value.float (.inf pos)) =
            .error .attributeError := rfl
        rw [h0] at henc
        exact absurd henc (by simp)
      | finite num denom e =>
        have h0 : varEncodeF (fuel + 1) (Value.float (.finite num denom e)) =
            .ok (prefixWithSize
              (5 :: (intEncode num ++ intEncode denom ++ intEncode e))) := rfl
        rw [h0] at henc
        injection henc with hb
        refine ⟨5, intEncode num ++ intEncode denom ++ intEncode e, ?_,
          by norm_num, by norm_num⟩
        rw [← hb]
        show intEncode (((5 :: (intEncode num ++ intEncode denom ++ intEncode e)).length :
          Nat) : Int) ++ 5 :: (intEncode num ++ intEncode denom ++ intEncode e) = _
        rw [List.length_cons, Nat.add_comm]
    | str s =>
      have h0 : varEncodeF (fuel + 1) (Value.str s) =
          .ok (prefixWithSize (6 :: strEncode s)) := rfl
      rw [h0] at henc
      injection henc with hb
      refine ⟨6, strEncode s, ?_, by norm_num, by norm_num⟩
      rw [← hb]
      show intEncode (((6 :: strEncode s).length : Nat) : Int) ++ 6 :: strEncode s = _
      rw [List.length_cons, Nat.add_comm]
    | list l =>
      have h0 : varEncodeF (fuel + 1) (Value.list l) =
          (match listEncode (fun w => varEncodeF fuel w) l with
           | .error e => .error e
           | .ok data => .ok (intEncode ((data.length : Int) + 1) ++ 1 :: data)) := rfl
      rw [h0] at henc
      cases hle : listEncode (fun w => varEncodeF fuel w) l with
      | error e => rw [hle] at henc; exact absurd henc (by simp)
      | ok data =>
        rw [hle] at henc
        injection henc with hb
        refine ⟨1, data, ?_, by norm_num, by norm_num⟩
        rw [← hb]
        have hc : ((data.length : Int) + 1) = ((1 + data.length : Nat) : Int) := by
          push_cast; ring
        rw [hc]
    | dict d =>
      have h0 : varEncodeF (fuel + 1) (Value.dict d) =
          (match dictEncode (fun w => varEncodeF fuel w) d with
           | .error e => .error e
           | .ok data => .ok (intEncode ((data.length : Int) + 1) ++ 2 :: data)) := rfl
      rw [h0] at henc
      cases hle : dictEncode (fun w => varEncodeF fuel w) d with
      | error e => rw [hle] at henc; exact absurd henc (by simp)
      | ok data =>
        rw [hle] at henc
        injection henc with hb
        refine ⟨2, data, ?_, by norm_num, by norm_num⟩
        rw [← hb]
        have hc : ((data.length : Int) + 1) = ((1 + data.length : Nat) : Int) := by
          push_cast; ring
        rw [hc]

/-! ## Sign bit and width of the two's-complement byte string -/

theorem intToBin_width (x : Int) :
    (if 0 ≤ x then bitsOf x.toNat else bitsOf (-(x + 1)).toNat) + 1 ≤
      8 * (intToBin x).length := by
  rcases le_or_lt 0 x with hx | hx
  · rw [if_pos hx, intToBin_nonneg x hx, List.length_map, List.length_range]
    omega
  · rw [if_neg (not_le.2 hx), intToBin_neg x hx, List.length_map, List.length_range]
    omega

theorem intToBin_nonneg_lt (x : Int) (_hx : 0 ≤ x) :
    x.toNat < 2 ^ (8 * ((bitsOf x.toNat + 1 + 7) / 8) - 1) := by
  have h1 := lt_two_pow_bitsOf x.toNat
  have h2 : (2 : Nat) ^ bitsOf x.toNat ≤ 2 ^ (8 * ((bitsOf x.toNat + 1 + 7) / 8) - 1) :=
    Nat.pow_le_pow_right (by norm_num) (by omega)
  omega

theorem intToBin_head (x : Int) :
    ∃ b tail, intToBin x = b :: tail ∧ (128 ≤ b ↔ x < 0) := by
  rcases le_or_lt 0 x with hx | hx
  · have hform := intToBin_nonneg x hx
    have hlt := intToBin_nonneg_lt x hx
    obtain ⟨B', hB'⟩ : ∃ B', (bitsOf x.toNat + 1 + 7) / 8 = B' + 1 :=
      ⟨(bitsOf x.toNat + 1 + 7) / 8 - 1, by omega⟩
    rw [hB'] at hform hlt
    rw [List.range_succ_eq_map, List.map_cons] at hform
    have hdivlt : x.toNat / 2 ^ (8 * (B' + 1 - 1 - 0)) < 128 := by
      rw [Nat.div_lt_iff_lt_mul (Nat.pos_pow_of_pos _ (by norm_num))]
      have he : (128 : Nat) * 2 ^ (8 * (B' + 1 - 1 - 0)) = 2 ^ (8 * (B' + 1) - 1) := by
        rw [show (128 : Nat) = 2 ^ 7 by norm_num, ← pow_add]
        congr 1
        omega
      rw [he]
      exact hlt
    refine ⟨x.toNat / 2 ^ (8 * (B' + 1 - 1 - 0)) % 256, _, hform, ?_⟩
    have hb : x.toNat / 2 ^ (8 * (B' + 1 - 1 - 0)) % 256 < 128 := by
      rw [Nat.mod_eq_of_lt (by omega)]
      exact hdivlt
    constructor
    · intro hge; omega
    · intro hneg; omega
  · have hform := intToBin_neg x hx
    have hx1 : (0 : Int) ≤ -(x + 1) := by omega
    have hmx : ((-(x + 1)).toNat : Int) = -(x + 1) := Int.toNat_of_nonneg hx1
    set m := (-(x + 1)).toNat with hm
    set B := (bitsOf m + 1 + 7) / 8 with hB
    have hbl : bitsOf m + 1 ≤ 8 * B := by omega
    have hmlt : m < 2 ^ bitsOf m := lt_two_pow_bitsOf m
    have hpow_le : (2 : Nat) ^ bitsOf m ≤ 2 ^ (8 * B - 1) :=
      Nat.pow_le_pow_right (by norm_num) (by omega)
    have hA2 : (2 : Nat) ^ (8 * B) = 2 * 2 ^ (8 * B - 1) := by
      conv_lhs => rw [show 8 * B = (8 * B - 1) + 1 by omega]
      rw [pow_succ]
      ring
    have h256 : ((256 : Int) ^ B) = (((2 : Nat) ^ (8 * B) : Nat) : Int) := by
      push_cast
      rw [show ((256 : Int)) = 2 ^ 8 by norm_num, ← pow_mul]
    have hu_nonneg : (0 : Int) ≤ x + 256 ^ B := by
      rw [h256]; omega
    have hucast : (((x + (256 : Int) ^ B).toNat : Nat) : Int) = x + 256 ^ B :=
      Int.toNat_of_nonneg hu_nonneg
    set u := (x + (256 : Int) ^ B).toNat with hu
    have huge : 2 ^ (8 * B - 1) ≤ u ∧ u < 2 ^ (8 * B) := by
      rw [h256] at hucast
      constructor <;> omega
    obtain ⟨B', hB'⟩ : ∃ B', B = B' + 1 := ⟨B - 1, by omega⟩
    rw [hB'] at hform
    rw [List.range_succ_eq_map, List.map_cons] at hform
    have hsplit : 8 * (B' + 1) - 1 = 7 + 8 * (B' + 1 - 1 - 0) := by omega
    have hdge : 128 ≤ u / 2 ^ (8 * (B' + 1 - 1 - 0)) := by
      rw [Nat.le_div_iff_mul_le (Nat.pos_pow_of_pos _ (by norm_num))]
      have he : (128 : Nat) * 2 ^ (8 * (B' + 1 - 1 - 0)) = 2 ^ (8 * B - 1) := by
        rw [show (128 : Nat) = 2 ^ 7 by norm_num, ← pow_add, hB']
        congr 1
        omega
      rw [he]
      exact huge.1
    have hdlt : u / 2 ^ (8 * (B' + 1 - 1 - 0)) < 256 := by
      rw [Nat.div_lt_iff_lt_mul (Nat.pos_pow_of_pos _ (by norm_num))]
      have he : (256 : Nat) * 2 ^ (8 * (B' + 1 - 1 - 0)) = 2 ^ (8 * B) := by
        rw [show (256 : Nat) = 2 ^ 8 by norm_num, ← pow_add, hB']
        congr 1
        omega
      rw [he]
      exact huge.2
    refine ⟨u / 2 ^ (8 * (B' + 1 - 1 - 0)) % 256, _, hform, ?_⟩
    have hb : 128 ≤ u / 2 ^ (8 * (B' + 1 - 1 - 0)) % 256 := by
      rw [Nat.mod_eq_of_lt hdlt]
      exact hdge
    constructor
    · intro _; exact hx
    · intro _; exact hb

/-! ## The claims -/

/-- C1: the claimed unconditional round-trip `varDecode(varEncode v) = v` fails
on the code.  Encoding the boolean `True` raises `TypeError` (the source
concatenates an `array` with the `str` returned by `boolEncode`), and decoding
the encoding of NaN raises `ZeroDivisionError` (the NaN sentinel has
denominator 0 and `floatDecode` divides by it) instead of returning NaN.  For
the variants that do encode (Nil, Int, Str, finite Floats, and the
spec-modelled List/Dict), the round-trip holds, witnessed by
`varDecodeF_varEncodeF` applied in the last conjunct. -/
theorem roundTrip_fails_on_bool_and_nan :
    varEncodeF 1 (Value.bool true) = .error .typeError ∧
    varEncodeF 1 (Value.float .nan) = .ok [128, 7, 5, 128, 0, 128, 0, 128, 0] ∧
    varDecodeF 1 [128, 7, 5, 128, 0, 128, 0, 128, 0] = .error .zeroDivisionError ∧
    (∀ (fuel : Nat) (v : Value) (bytes rest : List Nat),
      Value.Wf v → varEncodeF fuel v = .ok bytes →
      varDecodeF fuel (bytes ++ rest) = .ok (v, rest)) :=
  ⟨rfl, rfl, rfl, varDecodeF_varEncodeF⟩

/-- C1 witness: the positive round-trip conjunct applied to the concrete
string value `"A"` (byte 65) with one trailing byte. -/
theorem roundTrip_fails_on_bool_and_nan_witness :
    varDecodeF 1 ([128, 4, 6, 128, 1, 65] ++ [1]) = .ok (Value.str [65], [1]) :=
  roundTrip_fails_on_bool_and_nan.2.2.2 1 (Value.str [65]) [128, 4, 6, 128, 1, 65] [1]
    (Value.Wf.str [65]) rfl

/-- C2: the reserved float encodings crash rather than round-trip.  NaN does
encode as three integer-zero fields, but `floatEncode` of ±Infinity raises
`AttributeError` (it passes the *float* `math.copysign(1, x)` to `intEncode`,
and floats have no `bit_length`), and `floatDecode` of each of the three
sentinel encodings raises `ZeroDivisionError` because the division by the
zero denominator is unguarded — contradicting the module's own comment that
`denom=0` yields ±Inf/NaN. -/
theorem floatCodec_sentinels_crash :
    floatEncode Flt.nan = .ok (intEncode 0 ++ intEncode 0 ++ intEncode 0) ∧
    floatEncode (Flt.inf true) = .error .attributeError ∧
    floatEncode (Flt.inf false) = .error .attributeError ∧
    floatDecode (intEncode 0 ++ intEncode 0 ++ intEncode 0) = .error .zeroDivisionError ∧
    floatDecode (intEncode 1 ++ intEncode 0 ++ intEncode 0) = .error .zeroDivisionError ∧
    floatDecode (intEncode (-1) ++ intEncode 0 ++ intEncode 0) = .error .zeroDivisionError :=
  ⟨rfl, rfl, rfl, rfl, rfl, rfl⟩

/-- C3: decoding a truncated stream does not raise FormatError.  The 5-byte
stream `80 05 06 80 0A` declares a 5-byte envelope with tag 6 (str) whose
string header declares 10 bytes with none remaining: `stream.read(10)`
silently returns the empty string and `varDecode` returns it as a value; the
empty stream raises `TypeError` from `ord("")`.  Only the unknown-tag half of
the claim holds: any stream whose positive size field is followed by tag
byte 7 raises `FormatError "type 7 unknown"`. -/
theorem truncation_silently_accepted_tag7_formatError :
    varDecodeF 1 [128, 5, 6, 128, 10] = .ok (Value.str [], []) ∧
    varDecodeF 1 [] = .error .typeError ∧
    (∀ (fuel : Nat) (sz : Int) (rest : List Nat), 0 < sz →
      varDecodeF (fuel + 1) (intEncode sz ++ 7 :: rest) =
        .error (.formatError "type 7 unknown")) := by
  refine ⟨rfl, rfl, ?_⟩
  intro fuel sz rest hsz
  show varDecodeStep (fun s => varDecodeF fuel s) (intEncode sz ++ 7 :: rest) = _
  unfold varDecodeStep
  rw [intDecode_intEncode]
  simp only [if_neg (show ¬ sz < 0 by omega), if_neg (show ¬ sz = 0 by omega)]
  norm_num
  rfl

/-- C3 witness: the tag-7 conjunct applied at size 2 and an empty tail. -/
theorem truncation_tag7_witness :
    varDecodeF 1 (intEncode 2 ++ 7 :: []) = .error (.formatError "type 7 unknown") :=
  truncation_silently_accepted_tag7_formatError.2.2 0 2 [] (by norm_num)

/-- C4 (spec-modelled: the four list/dict functions are `pass` stubs in the
source; they are modelled from §4.6 of the spec): a list body is the
int-encoded item count followed by the variant envelope of each item in
caller-supplied order, and decoding reads the count then exactly that many
envelopes back into the same ordered sequence; a dict body is the int-encoded
pair count followed by, for each pair, the envelope of the key then the
envelope of the value, and decoding reads them back in stream order. -/
theorem listEncode_dictEncode_shape_roundTrip :
    (∀ (fuel : Nat) (l : List Value) (bytes rest : List Nat),
      (∀ v ∈ l, Value.Wf v) →
      listEncode (fun v => varEncodeF fuel v) l = .ok bytes →
      (∃ envs : List (List Nat),
        List.Forall₂ (fun v e => varEncodeF fuel v = .ok e) l envs ∧
        bytes = intEncode (l.length : Int) ++ envs.flatten) ∧
      listDecode (fun s => varDecodeF fuel s) (bytes ++ rest) = .ok (.list l, rest)) ∧
    (∀ (fuel : Nat) (d : List (Value × Value)) (bytes rest : List Nat),
      (∀ p ∈ d, Value.Wf p.1) → (∀ p ∈ d, Value.Wf p.2) →
      dictEncode (fun v => varEncodeF fuel v) d = .ok bytes →
      (∃ envs : List (List Nat × List Nat),
        List.Forall₂ (fun p e => varEncodeF fuel p.1 = .ok e.1 ∧
          varEncodeF fuel p.2 = .ok e.2) d envs ∧
        bytes = intEncode (d.length : Int) ++ (envs.map (fun e => e.1 ++ e.2)).flatten) ∧
      dictDecode (fun s => varDecodeF fuel s) (bytes ++ rest) = .ok (.dict d, rest)) := by
  constructor
  · intro fuel l bytes rest hwf henc
    refine ⟨?_, listDecode_listEncode fuel l bytes rest hwf henc⟩
    simp only [listEncode] at henc
    cases hei : encodeItems (fun v => varEncodeF fuel v) l with
    | error e => rw [hei] at henc; exact absurd henc (by simp)
    | ok bodies =>
      rw [hei] at henc
      injection henc with h
      obtain ⟨envs, hf, hbs⟩ := encodeItems_shape (fun v => varEncodeF fuel v) l bodies hei
      exact ⟨envs, hf, by rw [← h, hbs]⟩
  · intro fuel d bytes rest hwfk hwfv henc
    refine ⟨?_, dictDecode_dictEncode fuel d bytes rest hwfk hwfv henc⟩
    simp only [dictEncode] at henc
    cases hei : encodePairs (fun v => varEncodeF fuel v) d with
    | error e => rw [hei] at henc; exact absurd henc (by simp)
    | ok bodies =>
      rw [hei] at henc
      injection henc with h
      obtain ⟨envs, hf, hbs⟩ := encodePairs_shape (fun v => varEncodeF fuel v) d bodies hei
      exact ⟨envs, hf, by rw [← h, hbs]⟩

/-- C4 witness: the list half applied to the one-element list `[5]`, whose
modelled encoding is count 1 followed by the `int 5` envelope. -/
theorem listEncode_shape_witness :
    (∃ envs : List (List Nat),
      List.Forall₂ (fun v e => varEncodeF 1 v = .ok e) [Value.int 5] envs ∧
      [128, 1, 128, 3, 4, 128, 5] =
        intEncode (([Value.int 5].length : Nat) : Int) ++ envs.flatten) ∧
    listDecode (fun s => varDecodeF 1 s) ([128, 1, 128, 3, 4, 128, 5] ++ []) =
      .ok (.list [Value.int 5], []) :=
  listEncode_dictEncode_shape_roundTrip.1 1 [Value.int 5] [128, 1, 128, 3, 4, 128, 5] []
    (fun v hv => by
      rw [List.mem_singleton] at hv
      exact hv ▸ Value.Wf.int 5) rfl

/-- C5: for every strictly positive `n`, gamma-decoding the gamma encoding of
`n` returns `n` leaving trailing bytes untouched, and the encoding occupies
exactly `⌈(2·bitlen(n) − 1) / 8⌉` bytes. -/
theorem gamma_roundTrip_and_length (n : Nat) (h : 0 < n) (rest : List Nat) :
    eliasGammaDecode (eliasGammaEncode n ++ rest) = .ok (n, rest) ∧
    (eliasGammaEncode n).length = (2 * bitsOf n - 1 + 7) / 8 :=
  ⟨eliasGammaDecode_encode n h rest, eliasGammaEncode_length n⟩

/-- C5 witness: `n = 5` (bit length 3, encoding 1 byte) with a trailing
byte. -/
theorem gamma_roundTrip_witness :
    eliasGammaDecode (eliasGammaEncode 5 ++ [9]) = .ok (5, [9]) ∧
    (eliasGammaEncode 5).length = (2 * bitsOf 5 - 1 + 7) / 8 :=
  gamma_roundTrip_and_length 5 (by norm_num) [9]

/-- C6: the integer codec round-trips every integer of either sign and any
magnitude, leaving trailing bytes untouched. -/
theorem int_roundTrip (x : Int) (rest : List Nat) :
    intDecode (intEncode x ++ rest) = .ok (x, rest) :=
  intDecode_intEncode x rest

/-- C6 witness: a 65-digit integer and a negative 64-bit-boundary integer. -/
theorem int_roundTrip_witness :
    intDecode (intEncode (10 ^ 64 + 3) ++ [1]) = .ok (10 ^ 64 + 3, [1]) ∧
    intDecode (intEncode (-(2 ^ 63) - 1) ++ []) = .ok (-(2 ^ 63) - 1, []) :=
  ⟨int_roundTrip (10 ^ 64 + 3) [1], int_roundTrip (-(2 ^ 63) - 1) []⟩

/-- C7 counterexample: at `x = -128` the claimed width bound fails.  Python's
`bit_length` of −128 is 8, so the claim demands a width of at least 9 bits,
but `intToBin (-128)` is the single byte `0x80` — 8 bits.  (The code sizes
negative numbers by `(x+1).bit_length() + 1`, which is 8 here.) -/
theorem intToBin_width_counterexample :
    intToBin (-128) = [128] ∧
    8 * (intToBin (-128 : Int)).length < bitsOf ((-128 : Int)).natAbs + 1 :=
  ⟨rfl, by decide⟩

/-- C7 amended: `intToBin` produces a big-endian two's-complement byte string
(reading it back with `binToInt` recovers `x`), never empty, whose first
byte's high bit is set exactly when `x` is negative (so a sign bit is always
present), and whose bit width is at least `bit_length(x) + 1` for `x ≥ 0` and
at least `bit_length(x + 1) + 1` for `x < 0`; in particular `0` encodes as
exactly one zero byte. -/
theorem intToBin_twos_complement (x : Int) :
    (∃ b tail, intToBin x = b :: tail ∧ (128 ≤ b ↔ x < 0)) ∧
    (if 0 ≤ x then bitsOf x.toNat else bitsOf (-(x + 1)).toNat) + 1 ≤
      8 * (intToBin x).length ∧
    binToInt (intToBin x) = x ∧
    intToBin 0 = [0] :=
  ⟨intToBin_head x, intToBin_width x, binToInt_intToBin x, rfl⟩

/-- C8: the envelope claim fails on the code for booleans (the `array + str`
concatenation in the bool branch raises `TypeError` before any envelope is
built) and for infinite floats (`floatEncode` raises `AttributeError`).
Every envelope that *is* produced has the claimed shape: a size field whose
value is exactly `1 + len(body)`, a tag byte in `{1,…,6}` matching the
variant (4 for Int and 6 for Str shown explicitly), then the body — and
re-reading the size field from the byte string confirms the skip distance. -/
theorem envelope_shape_and_bool_crash :
    varEncodeF 1 (Value.bool true) = .error .typeError ∧
    varEncodeF 1 (Value.float (Flt.inf true)) = .error .attributeError ∧
    (∀ i : Int, varEncodeF 1 (Value.int i) =
      .ok (intEncode ((1 + (intEncode i).length : Nat) : Int) ++ 4 :: intEncode i)) ∧
    (∀ s : List Nat, varEncodeF 1 (Value.str s) =
      .ok (intEncode ((1 + (strEncode s).length : Nat) : Int) ++ 6 :: strEncode s)) ∧
    (∀ (fuel : Nat) (v : Value) (bytes rest : List Nat),
      varEncodeF fuel v = .ok bytes → v ≠ .nil →
      ∃ tag body,
        bytes = intEncode ((1 + body.length : Nat) : Int) ++ tag :: body ∧
        1 ≤ tag ∧ tag ≤ 6 ∧
        intDecode (bytes ++ rest) =
          .ok (((1 + body.length : Nat) : Int), (tag :: body) ++ rest) ∧
        ((tag :: body) ++ rest).drop (1 + body.length) = rest) := by
  refine ⟨rfl, rfl, ?_, ?_, ?_⟩
  · intro i
    show Except.ok (intEncode (((4 :: intEncode i).length : Nat) : Int) ++ 4 :: intEncode i) = _
    rw [List.length_cons, Nat.add_comm]
  · intro s
    show Except.ok (intEncode (((6 :: strEncode s).length : Nat) : Int) ++ 6 :: strEncode s) = _
    rw [List.length_cons, Nat.add_comm]
  · intro fuel v bytes rest henc hv
    obtain ⟨tag, body, hb, h1, h6⟩ := varEncode_shape fuel v bytes hv henc
    refine ⟨tag, body, hb, h1, h6, ?_, ?_⟩
    · rw [hb, List.append_assoc, intDecode_intEncode]
    · have hlen : (tag :: body).length = 1 + body.length := by
        rw [List.length_cons, Nat.add_comm]
      rw [← hlen, List.drop_left]

/-- C8 witness: the shape conjunct applied to the concrete envelope of the
integer 1, whose size field reads back as 3 and skips to the tail. -/
theorem envelope_shape_witness :
    ∃ tag body,
      [128, 3, 4, 128, 1] = intEncode ((1 + body.length : Nat) : Int) ++ tag :: body ∧
      1 ≤ tag ∧ tag ≤ 6 ∧
      intDecode ([128, 3, 4, 128, 1] ++ [2]) =
        .ok (((1 + body.length : Nat) : Int), (tag :: body) ++ [2]) ∧
      ((tag :: body) ++ [2]).drop (1 + body.length) = [2] :=
  envelope_shape_and_bool_crash.2.2.2.2 1 (Value.int 1) [128, 3, 4, 128, 1] [2] rfl
    (by simp)

/-- C9: Nil encodes as the int-encoded size 0 with no tag and no body;
decoding a zero size field returns Nil immediately with the rest of the
stream untouched; and every successfully encoded non-Nil value carries a
strictly positive size field, so Nil is the only variant with a zero-valued
size field. -/
theorem nil_zero_envelope (fuel : Nat) (rest : List Nat) :
    varEncodeF (fuel + 1) Value.nil = .ok (intEncode 0) ∧
    varDecodeF (fuel + 1) (intEncode 0 ++ rest) = .ok (Value.nil, rest) ∧
    (∀ (fuel' : Nat) (v : Value) (bytes : List Nat), v ≠ .nil →
      varEncodeF fuel' v = .ok bytes →
      ∃ sz tail, intDecode bytes = .ok (sz, tail) ∧ 0 < sz) := by
  refine ⟨rfl, ?_, ?_⟩
  · show varDecodeStep (fun s => varDecodeF fuel s) (intEncode 0 ++ rest) = _
    unfold varDecodeStep
    rw [intDecode_intEncode]
    simp
  · intro fuel' v bytes hv henc
    obtain ⟨tag, body, hb, _, _⟩ := varEncode_shape fuel' v bytes hv henc
    refine ⟨((1 + body.length : Nat) : Int), tag :: body, ?_, by omega⟩
    rw [hb]
    exact intDecode_intEncode _ _

/-- C9 witness: decoding `intEncode 0` followed by two bytes returns Nil and
both bytes; the non-Nil conjunct applied to the envelope of the integer −1
yields the positive size field 3. -/
theorem nil_zero_envelope_witness :
    varDecodeF 1 (intEncode 0 ++ [7, 7]) = .ok (Value.nil, [7, 7]) ∧
    (∃ sz tail, intDecode [128, 3, 4, 128, 255] = .ok (sz, tail) ∧ 0 < sz) :=
  ⟨(nil_zero_envelope 0 [7, 7]).2.1,
   (nil_zero_envelope 0 []).2.2 1 (Value.int (-1)) [128, 3, 4, 128, 255] (by simp) (by rfl)⟩

/-- C10: `boolDecode` consumes exactly one byte and maps it through Python
truthiness: the result is `False` exactly when the byte is `0x00`, and every
nonzero byte — not just the `0x01` that `boolEncode` emits — decodes to
`True` without an error. -/
theorem boolDecode_truthiness :
    (∀ (b : Nat) (rest : List Nat),
      ∃ r, boolDecode (b :: rest) = .ok (r, rest) ∧ (r = false ↔ b = 0)) ∧
    boolEncode true = [1] ∧ boolEncode false = [0] := by
  refine ⟨?_, rfl, rfl⟩
  intro b rest
  refine ⟨b != 0, rfl, ?_⟩
  constructor
  · intro h
    simpa using h
  · intro h
    subst h
    rfl
